import Mathlib

/-!
Verification of the WikiBacon repository against its specification.

The repository ships two files: `main.py` (the console game loop) and
`conftest.py` (test mocks).  The core module `wiki` (providing `get_page`,
`find_short_path`, `set_hard_mode`) is declared by the spec and imported by
`main.py` but its source is not part of the checked tree, so the path-finding
engine below is modelled from the specification text (sections 3, 4.4, 5, 7),
while the game loop is embedded directly from `main.py`.

Titles are kept abstract (`α` with decidable equality); the game loop
instantiates `α := String`.  Summaries are sequences of characters so that the
`[:500]` slice of `main.py` is `List.take 500`.
-/

namespace WikiBacon

/-- A page of the traversal graph (spec section 3).  The canonical title
doubles as the page identifier (the spec calls it "identifier (canonical
title, unique within a session)"), `summary` is the text surfaced to the
caller, and `links`/`categories` induce the outgoing edges. -/
structure Page (α : Type) where
  title : α
  summary : List Char
  links : List α
  categories : List α
deriving DecidableEq

/-- Modelled from the spec: `EdgeSet(Page, policy)` (section 3) — the titles
reachable in one hop: links plus categories under normal policy, links only
under hard policy. -/
def edgeSet {α : Type} (p : Page α) (hard : Bool) : List α :=
  if hard then p.links else p.links ++ p.categories

/-- Modelled from the spec: one-hop successor titles of a title, resolving it
through the page source first; a title that fails to resolve is a dead end
(spec section 4.4: "a broken link is treated as a dead end, not a search
failure"). -/
def succOf {α : Type} (resolve : α → Option (Page α)) (hard : Bool) (t : α) :
    List α :=
  match resolve t with
  | none => []
  | some p => edgeSet p hard

/-- Outcome of expanding part of a BFS round: either the target was just
discovered (short-circuit, spec section 4.4), or the round continues with the
updated visited set, predecessor map and next frontier. -/
inductive StepOut (α : Type) where
  | found (pred : List (α × α))
  | cont (visited : List α) (pred : List (α × α)) (next : List α)

/-- Modelled from the spec: process the outgoing edges of one frontier title
`u` (spec section 4.4): each edge target not already visited is marked
visited, gets `u` recorded as predecessor and joins the next frontier; if it
is the search target the round short-circuits at once. -/
def expandEdges {α : Type} [DecidableEq α] (target u : α) :
    List α → List α → List (α × α) → List α → StepOut α
  | [], visited, pred, next => .cont visited pred next
  | v :: vs, visited, pred, next =>
    if v ∈ visited then
      expandEdges target u vs visited pred next
    else if v = target then
      .found ((v, u) :: pred)
    else
      expandEdges target u vs (v :: visited) ((v, u) :: pred) (next ++ [v])

/-- Modelled from the spec: expand every title of the current frontier in
order (spec section 4.4), threading visited set, predecessor map and next
frontier, short-circuiting as soon as the target is produced. -/
def expandFrontier {α : Type} [DecidableEq α] (succ : α → List α) (target : α) :
    List α → List α → List (α × α) → List α → StepOut α
  | [], visited, pred, next => .cont visited pred next
  | u :: us, visited, pred, next =>
    match expandEdges target u (succ u) visited pred next with
    | .found pred' => .found pred'
    | .cont visited' pred' next' => expandFrontier succ target us visited' pred' next'

/-- Predecessor recorded for a title in the predecessor map (first entry
wins; each title is inserted at most once per search). -/
def predLookup {α : Type} [DecidableEq α] (pred : List (α × α)) (t : α) :
    Option α :=
  match pred.find? (fun e => decide (e.1 = t)) with
  | some e => some e.2
  | none => none

/-- Walk the predecessor map from a title back towards the start (the title
with no recorded predecessor), collecting titles in reverse path order. -/
def walkBack {α : Type} [DecidableEq α] (pred : List (α × α)) :
    Nat → α → List α
  | 0, t => [t]
  | fuel + 1, t =>
    match predLookup pred t with
    | none => [t]
    | some u => t :: walkBack pred fuel u

/-- Modelled from the spec: "reconstruct the path by walking predecessors
from target back to start, then reversing" (spec section 4.4). -/
def reconstruct {α : Type} [DecidableEq α] (pred : List (α × α)) (target : α) :
    List α :=
  (walkBack pred pred.length target).reverse

/-- Modelled from the spec: the round loop of the BFS (spec sections 4.4 and
5).  `cap` is the effort cap in expanded titles; `expanded` counts the
titles expanded so far and is checked against the cap at each round
boundary.  Each round expands the whole current frontier.  The loop stops
with `none` when the frontier empties (component exhausted) or the budget is
already spent.  `fuel` is a structural-recursion bound; since every round
expands at least one title, `fuel = cap` rounds always suffice to reach the
cap check. -/
def bfsLoop {α : Type} [DecidableEq α] (succ : α → List α) (target : α)
    (cap : Nat) : Nat → Nat → List α → List α → List (α × α) →
    Option (List α)
  | _, _, [], _, _ => none
  | 0, _, _, _, _ => none
  | fuel + 1, expanded, u :: fr, visited, pred =>
    if cap ≤ expanded then none
    else
      match expandFrontier succ target (u :: fr) visited pred [] with
      | .found pred' => some (reconstruct pred' target)
      | .cont visited' pred' next =>
        bfsLoop succ target cap fuel (expanded + (u :: fr).length) next
          visited' pred'

/-- Modelled from the spec: `find_short_path(start, target)` (spec section
4.4) — the missing `wiki.find_short_path`.  Returns the single-element path
for identical identifiers, otherwise runs the bounded BFS from the start
title; `cap` is the effort cap (maximum number of expanded titles) and
`hard` the edge policy read once at search start. -/
def find_short_path {α : Type} [DecidableEq α] (resolve : α → Option (Page α))
    (hard : Bool) (cap : Nat) (start target : Page α) : Option (List α) :=
  if start.title = target.title then
    some [start.title]
  else
    bfsLoop (succOf resolve hard) target.title cap cap 0 [start.title]
      [start.title] []

/-- The score `main.py` derives from a search result (lines 66-86): a falsy
result (`None`, or an empty path) scores the sentinel 100, a returned path
scores its length. -/
def scoreOf {α : Type} (r : Option (List α)) : Nat :=
  match r with
  | none => 100
  | some p => if p.isEmpty then 100 else p.length

/-- A path of `n` hops from `s` in the graph whose edges are given by
`succ`. -/
inductive PathTo {α : Type} (succ : α → List α) (s : α) : α → Nat → Prop
  | refl : PathTo succ s s 0
  | step {u v : α} {n : Nat} :
      PathTo succ s u n → v ∈ succ u → PathTo succ s v (n + 1)

/-- The true shortest-hop distance from `s` to `t` is `n`: some path attains
`n` hops and no path is shorter.  This is the reference notion of shortest
distance the spec appeals to (section 8, "BFS optimality"). -/
def HasDist {α : Type} (succ : α → List α) (s t : α) (n : Nat) : Prop :=
  PathTo succ s t n ∧ ∀ m, PathTo succ s t m → n ≤ m

/-- A chain in the predecessor map from `t` down to a root (a title with no
recorded predecessor) of length `n`, all of whose titles lie in `S`. -/
inductive PredChainIn {α : Type} [DecidableEq α] (pred : List (α × α))
    (S : List α) : α → Nat → Prop
  | zero {t : α} : t ∈ S → predLookup pred t = none → PredChainIn pred S t 0
  | step {t u : α} {n : Nat} : t ∈ S → predLookup pred t = some u →
      PredChainIn pred S u n → PredChainIn pred S t (n + 1)

/-- What one continuing edge-expansion step guarantees about the updated
search state. -/
structure EEContSpec {α : Type} [DecidableEq α] (target u : α)
    (edges visited : List α) (pred : List (α × α)) (next : List α)
    (visited' : List α) (pred' : List (α × α)) (next' : List α) : Prop where
  mono : ∀ t ∈ visited, t ∈ visited'
  sub : ∀ t ∈ visited', t ∈ visited ∨ t ∈ edges
  all_in : ∀ v ∈ edges, v ∈ visited'
  target_free : target ∉ visited → target ∉ visited'
  lookup_old : ∀ x ∈ visited, predLookup pred' x = predLookup pred x
  lookup_new : ∀ t ∈ visited', t ∉ visited → predLookup pred' t = some u
  next_iff : ∀ x, x ∈ next' ↔ x ∈ next ∨ (x ∈ visited' ∧ x ∉ visited)
  count : pred'.length + next.length = pred.length + next'.length
  dom : (∀ e ∈ pred, e.1 ∈ visited) → ∀ e ∈ pred', e.1 ∈ visited'

/-- What a target-discovering edge-expansion step guarantees. -/
structure EEFoundSpec {α : Type} [DecidableEq α] (target u : α)
    (edges visited : List α) (pred : List (α × α))
    (pred' : List (α × α)) : Prop where
  target_edge : target ∈ edges
  lookup_target : predLookup pred' target = some u
  lookup_old : ∀ x ∈ visited, predLookup pred' x = predLookup pred x
  len : pred.length < pred'.length

/-- Mid-round search-state invariant at depth `d`: the visited set is the
ball of radius `d` around the start plus the titles already promoted to the
next frontier (which sit at distance exactly `d + 1`), the target is still
undiscovered, every visited title has a predecessor chain whose length is its
distance, and the predecessor map grew in lockstep with the next frontier
from its size `p0` at the round boundary. -/
structure MidInv {α : Type} [DecidableEq α] (succ : α → List α)
    (start target : α) (d p0 : Nat) (visited : List α)
    (pred : List (α × α)) (next : List α) : Prop where
  vis_iff : ∀ t, t ∈ visited ↔
    (∃ n, n ≤ d ∧ PathTo succ start t n) ∨ t ∈ next
  next_dist : ∀ x ∈ next, HasDist succ start x (d + 1)
  target_not : target ∉ visited
  chains : ∀ t ∈ visited,
    ∃ n, HasDist succ start t n ∧ PredChainIn pred visited t n
  dom : ∀ e ∈ pred, e.1 ∈ visited
  count : pred.length = p0 + next.length

/-- Round-boundary invariant of the BFS at depth `d`: the frontier is
exactly the set of titles at distance `d`, the visited set is exactly the
ball of radius `d`, the target is undiscovered, predecessor chains realise
the distances, predecessor keys are visited, and the predecessor map is at
least as large as the depth when the search continues. -/
structure Inv {α : Type} [DecidableEq α] (succ : α → List α)
    (start target : α) (d : Nat) (frontier visited : List α)
    (pred : List (α × α)) : Prop where
  frontier_iff : ∀ u, u ∈ frontier ↔ HasDist succ start u d
  vis_iff : ∀ t, t ∈ visited ↔ ∃ n, n ≤ d ∧ PathTo succ start t n
  target_not : target ∉ visited
  chains : ∀ t ∈ visited,
    ∃ n, HasDist succ start t n ∧ PredChainIn pred visited t n
  dom : ∀ e ∈ pred, e.1 ∈ visited
  len : frontier ≠ [] → d ≤ pred.length

/-- Observable events of one run of the `main.py` game loop. -/
inductive Event where
  | setMode (hard : Bool)
  | getPage (name : String) (result : Option (Page String))
  | display (p : Page String) (shownTitle : String) (shownSummary : List Char)
  | findPath (s t : Page String) (r : Option (List String))
  | assignScore (user : Bool) (n : Nat)
deriving DecidableEq

/-- The environment `main.py` runs against: the two `wiki` operations it
calls after mode selection.  `fsp` receives the hard-mode flag the program
set at startup. -/
structure Env where
  get_page : String → Option (Page String)
  fsp : Bool → Page String → Page String → Option (List String)

/-- The retry loops of `main.py` (lines 35-38, 44-47, 53-59): keep taking
candidate names (random draws from the dictionary, or user input) and
calling `get_page` until a page resolves.  Returns the page, the unconsumed
names, and the `get_page` events in order. -/
def resolveLoop (gp : String → Option (Page String)) :
    List String → Option (Page String × List String × List Event)
  | [] => none
  | w :: ws =>
    match gp w with
    | some p => some (p, ws, [Event.getPage w (some p)])
    | none =>
      match resolveLoop gp ws with
      | none => none
      | some (p, rest, evs) => some (p, rest, Event.getPage w none :: evs)

/-- What `main.py` shows for a resolved page (lines 40-41, 49-50, 61-62):
the page's title and the first 500 characters of its summary. -/
def displayEvent (p : Page String) : Event :=
  Event.display p p.title (p.summary.take 500)

/-- One round of the `main.py` game loop (lines 34-93): resolve the start
page and the computer's page from the random word stream, resolve the user's
page from the input stream, display each, then run the two searches
(start to computer, then start to user) and assign each side its score — the
path length when a path came back, the sentinel 100 otherwise. -/
def playRound (env : Env) (hard : Bool) (randoms userIns : List String) :
    Option (List Event × List String × List String) :=
  match resolveLoop env.get_page randoms with
  | none => none
  | some (startP, rnd1, evs1) =>
    match resolveLoop env.get_page rnd1 with
    | none => none
    | some (compP, rnd2, evs2) =>
      match resolveLoop env.get_page userIns with
      | none => none
      | some (userP, usr1, evs3) =>
        some (evs1 ++ [displayEvent startP] ++ evs2 ++ [displayEvent compP]
            ++ evs3 ++ [displayEvent userP]
            ++ [Event.findPath startP compP (env.fsp hard startP compP),
                Event.assignScore false (scoreOf (env.fsp hard startP compP)),
                Event.findPath startP userP (env.fsp hard startP userP),
                Event.assignScore true (scoreOf (env.fsp hard startP userP))],
          rnd2, usr1)

/-- The `while True` loop of `main.py` (lines 33-100): play rounds until the
play-again prompt reads "q".  `fuel` bounds the modelled number of rounds;
the result is the event list of each completed round. -/
def mainLoop (env : Env) (hard : Bool) :
    Nat → List String → List String → List String →
    Option (List (List Event))
  | 0, _, _, _ => none
  | fuel + 1, randoms, userIns, agains =>
    match playRound env hard randoms userIns with
    | none => none
    | some (evs, rnd', usr') =>
      match agains with
      | [] => none
      | cmd :: rest =>
        if cmd = "q" then
          some [evs]
        else
          match mainLoop env hard fuel rnd' usr' rest with
          | none => none
          | some rounds => some (evs :: rounds)

/-- The whole `main()` of `main.py`: the mode prompt sets hard mode once
(lines 14-21, `set_hard_mode(mode == "2")`), the start prompt may quit
before any round (lines 23-26), and otherwise the game loop runs.  Returns
the setup events and the per-round event lists. -/
def mainProg (env : Env) (mode startCmd : String)
    (randoms userIns agains : List String) (fuel : Nat) :
    Option (List Event × List (List Event)) :=
  let hard := mode == "2"
  if startCmd = "q" then
    some ([Event.setMode hard], [])
  else
    match mainLoop env hard fuel randoms userIns agains with
    | none => none
    | some rounds => some ([Event.setMode hard], rounds)

/-- Number of `set_hard_mode` calls recorded in an event list. -/
def countSetMode (evs : List Event) : Nat :=
  (evs.filter fun e => match e with
    | .setMode _ => true
    | _ => false).length

/-- The `find_short_path` invocations recorded in an event list, in order:
(start argument, target argument, result). -/
def findsOf (evs : List Event) :
    List (Page String × Page String × Option (List String)) :=
  evs.filterMap fun e => match e with
    | .findPath a b r => some (a, b, r)
    | _ => none

/-- The score assignments recorded in an event list, in order:
(is-user-side, score). -/
def scoresOf (evs : List Event) : List (Bool × Nat) :=
  evs.filterMap fun e => match e with
    | .assignScore w n => some (w, n)
    | _ => none

/-- The page displays recorded in an event list, in order:
(page, shown title, shown summary text). -/
def displaysOf (evs : List Event) :
    List (Page String × String × List Char) :=
  evs.filterMap fun e => match e with
    | .display p tt ss => some (p, tt, ss)
    | _ => none

/-- The pages whose `title`/`summary` fields an event reads. -/
def pageUses (e : Event) : List (Page String) :=
  match e with
  | .display p _ _ => [p]
  | .findPath a b _ => [a, b]
  | _ => []

/-- An environment whose searches are the modelled `wiki.find_short_path`
over the page source `resolve` with effort cap `cap` — `main.py` run against
the modelled core. -/
def wikiEnv (gp resolve : String → Option (Page String)) (cap : Nat) : Env :=
  ⟨gp, fun h a b => find_short_path resolve h cap a b⟩

/-- The diamond graph of the spec's scenario (section 8):
0 → {1, 2}, 1 → {3}, 2 → {3}, 3 → {}. -/
def diamondResolve : Nat → Option (Page Nat)
  | 0 => some ⟨0, [], [1, 2], []⟩
  | 1 => some ⟨1, [], [3], []⟩
  | 2 => some ⟨2, [], [3], []⟩
  | 3 => some ⟨3, [], [], []⟩
  | _ => none

/-- The page `diamondResolve` yields for a title (a dead-end page for
unresolvable titles; only the title matters to the search entry points). -/
def diamondPage (t : Nat) : Page Nat :=
  (diamondResolve t).getD ⟨t, [], [], []⟩

/-- A page of the 101-title chain 0 → 1 → ⋯ → 100. -/
def chainPage (t : Nat) : Page Nat :=
  ⟨t, [], if t < 100 then [t + 1] else [], []⟩

/-- The chain graph: every title resolves to its `chainPage`. -/
def chainResolve (t : Nat) : Option (Page Nat) :=
  some (chainPage t)

/-- A demo page whose title is the looked-up word. -/
def demoPage (w : String) : Page String :=
  ⟨w, ['a', 'b', 'c'], [], []⟩

/-- Demo environment: every name resolves, no search finds a path. -/
def demoEnv : Env :=
  ⟨fun w => some (demoPage w), fun _ _ _ => none⟩

/-- A page source that fails on the name "bad" and resolves anything else. -/
def flakyGet (w : String) : Option (Page String) :=
  if w = "bad" then none else some (demoPage w)

/-- The page source of `demoEnv` as a standalone function. -/
def demoGet (w : String) : Option (Page String) :=
  some (demoPage w)

/-- The event trace of one demo round in which the three names resolve at
once and neither search finds a path. -/
def demoRound (w1 w2 w3 : String) : List Event :=
  [Event.getPage w1 (some (demoPage w1)),
   displayEvent (demoPage w1),
   Event.getPage w2 (some (demoPage w2)),
   displayEvent (demoPage w2),
   Event.getPage w3 (some (demoPage w3)),
   displayEvent (demoPage w3),
   Event.findPath (demoPage w1) (demoPage w2) none,
   Event.assignScore false 100,
   Event.findPath (demoPage w1) (demoPage w3) none,
   Event.assignScore true 100]

section PathLemmas

variable {α : Type} {succ : α → List α} {s t : α}

theorem pathTo_zero (h : PathTo succ s t 0) : t = s := by
  cases h; rfl

theorem hasDist_self (succ : α → List α) (s : α) : HasDist succ s s 0 :=
  ⟨PathTo.refl, fun m _ => Nat.zero_le m⟩

theorem hasDist_unique {n m : Nat} (h1 : HasDist succ s t n)
    (h2 : HasDist succ s t m) : n = m :=
  Nat.le_antisymm (h1.2 m h2.1) (h2.2 n h1.1)

theorem new_node_dist {d : Nat} {u x : α}
    (hu : HasDist succ s u d) (hx : x ∈ succ u)
    (hnot : ∀ m, m ≤ d → ¬ PathTo succ s x m) :
    HasDist succ s x (d + 1) := by
  refine ⟨hu.1.step hx, ?_⟩
  intro m hm
  by_contra hlt
  push_neg at hlt
  exact hnot m (by omega) hm

theorem hasDist_of_pathTo {n : Nat} (h : PathTo succ s t n) :
    ∃ m, m ≤ n ∧ HasDist succ s t m := by
  have hmem : sInf {k | PathTo succ s t k} ∈ {k | PathTo succ s t k} :=
    Nat.sInf_mem ⟨n, h⟩
  exact ⟨sInf {k | PathTo succ s t k}, Nat.sInf_le h, hmem,
    fun m hm => Nat.sInf_le hm⟩

end PathLemmas

section PredMapLemmas

variable {α : Type} [DecidableEq α]

theorem predLookup_cons_self (pred : List (α × α)) (v u : α) :
    predLookup ((v, u) :: pred) v = some u := by
  rw [predLookup, List.find?_cons_of_pos]
  simp

theorem predLookup_cons_ne (pred : List (α × α)) {x v : α} (u : α)
    (h : x ≠ v) : predLookup ((v, u) :: pred) x = predLookup pred x := by
  rw [predLookup, List.find?_cons_of_neg, predLookup]
  intro hc
  simp only [decide_eq_true_eq] at hc
  exact h hc.symm

theorem predChainIn_mono {pred pred' : List (α × α)} {S S' : List α} {t : α}
    {n : Nat} (h : PredChainIn pred S t n)
    (hagree : ∀ x ∈ S, predLookup pred' x = predLookup pred x)
    (hsub : ∀ x ∈ S, x ∈ S') : PredChainIn pred' S' t n := by
  induction h with
  | zero hmem hnone =>
    exact .zero (hsub _ hmem) ((hagree _ hmem).trans hnone)
  | step hmem hsome _ ih =>
    exact .step (hsub _ hmem) ((hagree _ hmem).trans hsome) ih

theorem walkBack_length {pred : List (α × α)} {S : List α} {t : α} {n : Nat}
    (h : PredChainIn pred S t n) :
    ∀ fuel, n ≤ fuel → (walkBack pred fuel t).length = n + 1 := by
  induction h with
  | zero hmem hnone =>
    intro fuel _
    cases fuel with
    | zero => rfl
    | succ f => simp [walkBack, hnone]
  | step hmem hsome _ ih =>
    intro fuel hle
    cases fuel with
    | zero => omega
    | succ f =>
      simp only [walkBack, hsome, List.length_cons]
      rw [ih f (by omega)]

end PredMapLemmas

section ExpandEdgesLemmas

variable {α : Type} [DecidableEq α]

theorem expandEdges_cont_spec (target u : α) :
    ∀ (edges visited : List α) (pred : List (α × α)) (next visited' : List α)
      (pred' : List (α × α)) (next' : List α),
      expandEdges target u edges visited pred next = .cont visited' pred' next' →
      EEContSpec target u edges visited pred next visited' pred' next' := by
  intro edges
  induction edges with
  | nil =>
    intro visited pred next visited' pred' next' h
    simp only [expandEdges, StepOut.cont.injEq] at h
    obtain ⟨hv, hp, hn⟩ := h
    subst hv; subst hp; subst hn
    exact {
      mono := fun t ht => ht
      sub := fun t ht => Or.inl ht
      all_in := fun v hv => absurd hv (List.not_mem_nil v)
      target_free := fun h => h
      lookup_old := fun _ _ => rfl
      lookup_new := fun t ht hnt => absurd ht hnt
      next_iff := fun x => by
        constructor
        · exact fun h => Or.inl h
        · rintro (h | ⟨h1, h2⟩)
          · exact h
          · exact absurd h1 h2
      count := rfl
      dom := fun h => h }
  | cons v vs ih =>
    intro visited pred next visited' pred' next' h
    rw [expandEdges] at h
    by_cases hvis : v ∈ visited
    · rw [if_pos hvis] at h
      have spec := ih visited pred next visited' pred' next' h
      exact {
        mono := spec.mono
        sub := fun t ht => (spec.sub t ht).imp id (List.mem_cons_of_mem v)
        all_in := fun w hw => by
          rcases List.mem_cons.mp hw with hw | hw
          · subst hw
            exact spec.mono w hvis
          · exact spec.all_in w hw
        target_free := spec.target_free
        lookup_old := spec.lookup_old
        lookup_new := spec.lookup_new
        next_iff := spec.next_iff
        count := spec.count
        dom := spec.dom }
    · rw [if_neg hvis] at h
      by_cases htar : v = target
      · rw [if_pos htar] at h
        exact absurd h (by simp)
      · rw [if_neg htar] at h
        have spec := ih (v :: visited) ((v, u) :: pred) (next ++ [v])
          visited' pred' next' h
        have hvmem : v ∈ visited' := spec.mono v (List.mem_cons_self v visited)
        exact {
          mono := fun t ht => spec.mono t (List.mem_cons_of_mem v ht)
          sub := fun t ht => by
            rcases spec.sub t ht with ht' | ht'
            · rcases List.mem_cons.mp ht' with ht'' | ht''
              · exact Or.inr (ht'' ▸ List.mem_cons_self v vs)
              · exact Or.inl ht''
            · exact Or.inr (List.mem_cons_of_mem v ht')
          all_in := fun w hw => by
            rcases List.mem_cons.mp hw with hw | hw
            · exact hw ▸ hvmem
            · exact spec.all_in w hw
          target_free := fun ht => spec.target_free (by
            intro hmem
            rcases List.mem_cons.mp hmem with h' | h'
            · exact htar h'.symm
            · exact ht h')
          lookup_old := fun x hx => by
            have hne : x ≠ v := fun he => hvis (he ▸ hx)
            rw [spec.lookup_old x (List.mem_cons_of_mem v hx),
              predLookup_cons_ne pred u hne]
          lookup_new := fun t ht hnt => by
            by_cases htv : t = v
            · subst htv
              rw [spec.lookup_old t (List.mem_cons_self t visited),
                predLookup_cons_self]
            · exact spec.lookup_new t ht (by
                intro hmem
                rcases List.mem_cons.mp hmem with h' | h'
                · exact htv h'
                · exact hnt h')
          next_iff := fun x => by
            rw [spec.next_iff x]
            constructor
            · rintro (hx | ⟨hx1, hx2⟩)
              · rcases List.mem_append.mp hx with hx' | hx'
                · exact Or.inl hx'
                · have : x = v := by simpa using hx'
                  exact Or.inr ⟨this ▸ hvmem, this ▸ hvis⟩
              · exact Or.inr ⟨hx1, fun hx3 => hx2 (List.mem_cons_of_mem v hx3)⟩
            · rintro (hx | ⟨hx1, hx2⟩)
              · exact Or.inl (List.mem_append_left _ hx)
              · by_cases hxv : x = v
                · exact Or.inl (List.mem_append_right _ (by simp [hxv]))
                · exact Or.inr ⟨hx1, by
                    intro hmem
                    rcases List.mem_cons.mp hmem with h' | h'
                    · exact hxv h'
                    · exact hx2 h'⟩
          count := by
            have := spec.count
            simp only [List.length_cons, List.length_append,
              List.length_nil] at this ⊢
            omega
          dom := fun hdom => spec.dom (by
            intro e he
            rcases List.mem_cons.mp he with he' | he'
            · rw [he']
              exact List.mem_cons_self v visited
            · exact List.mem_cons_of_mem v (hdom e he')) }

theorem expandEdges_found_spec (target u : α) :
    ∀ (edges visited : List α) (pred : List (α × α)) (next : List α)
      (pred' : List (α × α)),
      target ∉ visited →
      expandEdges target u edges visited pred next = .found pred' →
      EEFoundSpec target u edges visited pred pred' := by
  intro edges
  induction edges with
  | nil =>
    intro visited pred next pred' _ h
    exact absurd h (by simp [expandEdges])
  | cons v vs ih =>
    intro visited pred next pred' htar h
    rw [expandEdges] at h
    by_cases hvis : v ∈ visited
    · rw [if_pos hvis] at h
      have spec := ih visited pred next pred' htar h
      exact {
        target_edge := List.mem_cons_of_mem v spec.target_edge
        lookup_target := spec.lookup_target
        lookup_old := spec.lookup_old
        len := spec.len }
    · rw [if_neg hvis] at h
      by_cases hvt : v = target
      · rw [if_pos hvt] at h
        simp only [StepOut.found.injEq] at h
        subst hvt
        rw [← h]
        exact {
          target_edge := List.mem_cons_self v vs
          lookup_target := predLookup_cons_self pred v u
          lookup_old := fun x hx =>
            @predLookup_cons_ne α _ pred x v u
              (fun he => hvis (show v ∈ visited from he ▸ hx))
          len := by simp }
      · rw [if_neg hvt] at h
        have htar' : target ∉ v :: visited := by
          intro hmem
          rcases List.mem_cons.mp hmem with h' | h'
          · exact hvt h'.symm
          · exact htar h'
        have spec := ih (v :: visited) ((v, u) :: pred) (next ++ [v]) pred'
          htar' h
        exact {
          target_edge := List.mem_cons_of_mem v spec.target_edge
          lookup_target := spec.lookup_target
          lookup_old := fun x hx => by
            rw [spec.lookup_old x (List.mem_cons_of_mem v hx),
              @predLookup_cons_ne α _ pred x v u
                (fun he => hvis (show v ∈ visited from he ▸ hx))]
          len := by
            have := spec.len
            simp only [List.length_cons] at this
            omega }

end ExpandEdgesLemmas

section FrontierLemmas

variable {α : Type} [DecidableEq α]

theorem expandFrontier_step {succ : α → List α} {start target : α}
    {d p0 : Nat} {u : α} {visited v1 : List α} {pred p1 : List (α × α)}
    {next n1 : List α}
    (hmi : MidInv succ start target d p0 visited pred next)
    (hu : HasDist succ start u d)
    (h : expandEdges target u (succ u) visited pred next = .cont v1 p1 n1) :
    MidInv succ start target d p0 v1 p1 n1 ∧ (∀ v ∈ succ u, v ∈ v1) ∧
      (∀ t ∈ visited, t ∈ v1) := by
  have spec := expandEdges_cont_spec target u (succ u) visited pred next
    v1 p1 n1 h
  have humem : u ∈ visited := (hmi.vis_iff u).mpr (Or.inl ⟨d, le_refl d, hu.1⟩)
  have hnew : ∀ t, t ∈ v1 → t ∉ visited → HasDist succ start t (d + 1) := by
    intro t ht hnt
    have hsucc : t ∈ succ u := (spec.sub t ht).resolve_left hnt
    refine new_node_dist hu hsucc ?_
    intro m hm hp
    exact hnt ((hmi.vis_iff t).mpr (Or.inl ⟨m, hm, hp⟩))
  refine ⟨?_, spec.all_in, spec.mono⟩
  refine ⟨?_, ?_, spec.target_free hmi.target_not, ?_, spec.dom hmi.dom, ?_⟩
  · intro t
    constructor
    · intro ht
      by_cases hnt : t ∈ visited
      · rcases (hmi.vis_iff t).mp hnt with hc | hc
        · exact Or.inl hc
        · exact Or.inr ((spec.next_iff t).mpr (Or.inl hc))
      · exact Or.inr ((spec.next_iff t).mpr (Or.inr ⟨ht, hnt⟩))
    · rintro (hc | hc)
      · exact spec.mono t ((hmi.vis_iff t).mpr (Or.inl hc))
      · rcases (spec.next_iff t).mp hc with hc' | hc'
        · exact spec.mono t ((hmi.vis_iff t).mpr (Or.inr hc'))
        · exact hc'.1
  · intro x hx
    rcases (spec.next_iff x).mp hx with hc | hc
    · exact hmi.next_dist x hc
    · exact hnew x hc.1 hc.2
  · intro t ht
    by_cases hnt : t ∈ visited
    · obtain ⟨n, hdn, hcn⟩ := hmi.chains t hnt
      exact ⟨n, hdn, predChainIn_mono hcn spec.lookup_old spec.mono⟩
    · obtain ⟨n, hdu, hcu⟩ := hmi.chains u humem
      have hnd : n = d := hasDist_unique hdu hu
      subst hnd
      refine ⟨n + 1, hnew t ht hnt, ?_⟩
      exact PredChainIn.step ht (spec.lookup_new t ht hnt)
        (predChainIn_mono hcu spec.lookup_old spec.mono)
  · have h1 := spec.count
    have h2 := hmi.count
    omega

theorem expandFrontier_cont_spec {succ : α → List α} {start target : α}
    {d p0 : Nat} :
    ∀ (us visited : List α) (pred : List (α × α)) (next visited' : List α)
      (pred' : List (α × α)) (next' : List α),
      MidInv succ start target d p0 visited pred next →
      (∀ u ∈ us, HasDist succ start u d) →
      expandFrontier succ target us visited pred next =
        .cont visited' pred' next' →
      MidInv succ start target d p0 visited' pred' next' ∧
        (∀ u, HasDist succ start u d →
          (u ∈ us ∨ ∀ v ∈ succ u, v ∈ visited) → ∀ v ∈ succ u, v ∈ visited') := by
  intro us
  induction us with
  | nil =>
    intro visited pred next visited' pred' next' hmi _ h
    simp only [expandFrontier, StepOut.cont.injEq] at h
    obtain ⟨hv, hp, hn⟩ := h
    subst hv; subst hp; subst hn
    refine ⟨hmi, ?_⟩
    intro u _ hcase v hv
    rcases hcase with hc | hc
    · exact absurd hc (List.not_mem_nil u)
    · exact hc v hv
  | cons u us ih =>
    intro visited pred next visited' pred' next' hmi hfr h
    rw [expandFrontier] at h
    cases hee : expandEdges target u (succ u) visited pred next with
    | found pf =>
      rw [hee] at h
      exact absurd h (by simp)
    | cont v1 p1 n1 =>
      rw [hee] at h
      have hu : HasDist succ start u d := hfr u (List.mem_cons_self u us)
      obtain ⟨hmi1, hall, hmono⟩ := expandFrontier_step hmi hu hee
      obtain ⟨hmi', hexp⟩ := ih v1 p1 n1 visited' pred' next' hmi1
        (fun w hw => hfr w (List.mem_cons_of_mem u hw)) h
      refine ⟨hmi', ?_⟩
      intro w hw hcase
      refine hexp w hw ?_
      rcases hcase with hc | hc
      · rcases List.mem_cons.mp hc with hc' | hc'
        · subst hc'
          exact Or.inr hall
        · exact Or.inl hc'
      · exact Or.inr (fun v hv => hmono v (hc v hv))

theorem expandFrontier_found_spec {succ : α → List α} {start target : α}
    {d p0 : Nat} :
    ∀ (us visited : List α) (pred : List (α × α)) (next : List α)
      (pred' : List (α × α)),
      MidInv succ start target d p0 visited pred next →
      (∀ u ∈ us, HasDist succ start u d) →
      expandFrontier succ target us visited pred next = .found pred' →
      HasDist succ start target (d + 1) ∧
        (∃ S, PredChainIn pred' S target (d + 1)) ∧ p0 < pred'.length := by
  intro us
  induction us with
  | nil =>
    intro visited pred next pred' _ _ h
    exact absurd h (by simp [expandFrontier])
  | cons u us ih =>
    intro visited pred next pred' hmi hfr h
    rw [expandFrontier] at h
    cases hee : expandEdges target u (succ u) visited pred next with
    | found pf =>
      rw [hee] at h
      simp only [StepOut.found.injEq] at h
      subst h
      have hu : HasDist succ start u d := hfr u (List.mem_cons_self u us)
      have humem : u ∈ visited :=
        (hmi.vis_iff u).mpr (Or.inl ⟨d, le_refl d, hu.1⟩)
      have spec := expandEdges_found_spec target u (succ u) visited pred next
        pf hmi.target_not hee
      have hdist : HasDist succ start target (d + 1) := by
        refine new_node_dist hu spec.target_edge ?_
        intro m hm hp
        exact hmi.target_not ((hmi.vis_iff target).mpr (Or.inl ⟨m, hm, hp⟩))
      refine ⟨hdist, ⟨target :: visited, ?_⟩, ?_⟩
      · obtain ⟨n, hdu, hcu⟩ := hmi.chains u humem
        have hnd : n = d := hasDist_unique hdu hu
        subst hnd
        exact PredChainIn.step (List.mem_cons_self target visited)
          spec.lookup_target
          (predChainIn_mono hcu spec.lookup_old
            (fun x hx => List.mem_cons_of_mem target hx))
      · have h1 := spec.len
        have h2 := hmi.count
        omega
    | cont v1 p1 n1 =>
      rw [hee] at h
      have hu : HasDist succ start u d := hfr u (List.mem_cons_self u us)
      obtain ⟨hmi1, _, _⟩ := expandFrontier_step hmi hu hee
      exact ih v1 p1 n1 pred' hmi1
        (fun w hw => hfr w (List.mem_cons_of_mem u hw)) h

end FrontierLemmas

section RoundLemmas

variable {α : Type} [DecidableEq α]

theorem Inv.toMid {succ : α → List α} {start target : α} {d : Nat}
    {frontier visited : List α} {pred : List (α × α)}
    (hi : Inv succ start target d frontier visited pred) :
    MidInv succ start target d pred.length visited pred [] := by
  refine ⟨?_, ?_, hi.target_not, hi.chains, hi.dom, (Nat.add_zero _).symm⟩
  · intro t
    rw [hi.vis_iff t]
    simp
  · intro x hx
    exact absurd hx (List.not_mem_nil x)

theorem inv_initial {succ : α → List α} {start target : α}
    (hne : target ≠ start) :
    Inv succ start target 0 [start] [start] [] := by
  refine ⟨?_, ?_, ?_, ?_, ?_, ?_⟩
  · intro u
    constructor
    · intro hu
      have : u = start := by simpa using hu
      subst this
      exact hasDist_self succ u
    · intro hu
      have : u = start := pathTo_zero hu.1
      simp [this]
  · intro t
    constructor
    · intro ht
      have : t = start := by simpa using ht
      exact ⟨0, le_refl 0, this ▸ PathTo.refl⟩
    · rintro ⟨n, hn, hp⟩
      have hn0 : n = 0 := Nat.le_zero.mp hn
      subst hn0
      simp [pathTo_zero hp]
  · simp [hne]
  · intro t ht
    have : t = start := by simpa using ht
    subst this
    exact ⟨0, hasDist_self succ t, PredChainIn.zero (List.mem_singleton.mpr rfl) rfl⟩
  · intro e he
    exact absurd he (List.not_mem_nil e)
  · intro _
    exact Nat.zero_le _

theorem round_cont_inv {succ : α → List α} {start target : α} {d : Nat}
    {u : α} {fr visited visited' next' : List α}
    {pred pred' : List (α × α)}
    (hi : Inv succ start target d (u :: fr) visited pred)
    (h : expandFrontier succ target (u :: fr) visited pred [] =
      .cont visited' pred' next') :
    Inv succ start target (d + 1) next' visited' pred' := by
  have hfr : ∀ w ∈ u :: fr, HasDist succ start w d :=
    fun w hw => (hi.frontier_iff w).mp hw
  obtain ⟨hm', hexp⟩ := expandFrontier_cont_spec (u :: fr) visited pred []
    visited' pred' next' hi.toMid hfr h
  have hexp' : ∀ w, HasDist succ start w d → ∀ v ∈ succ w, v ∈ visited' :=
    fun w hw => hexp w hw (Or.inl ((hi.frontier_iff w).mpr hw))
  have hfr' : ∀ x, x ∈ next' ↔ HasDist succ start x (d + 1) := by
    intro x
    constructor
    · exact fun hx => hm'.next_dist x hx
    · intro hx
      cases hx.1 with
      | step hw hsucc =>
        rename_i w
        have hwd : HasDist succ start w d := by
          refine ⟨hw, ?_⟩
          intro m hm
          have := hx.2 (m + 1) (hm.step hsucc)
          omega
        have hxv : x ∈ visited' := hexp' w hwd x hsucc
        rcases (hm'.vis_iff x).mp hxv with ⟨n', hn', hp'⟩ | hc
        · have := hx.2 n' hp'
          omega
        · exact hc
  refine ⟨hfr', ?_, hm'.target_not, hm'.chains, hm'.dom, ?_⟩
  · intro t
    constructor
    · intro ht
      rcases (hm'.vis_iff t).mp ht with ⟨n, hn, hp⟩ | hc
      · exact ⟨n, by omega, hp⟩
      · exact ⟨d + 1, le_refl _, (hm'.next_dist t hc).1⟩
    · rintro ⟨n, hn, hp⟩
      obtain ⟨m, hmn, hdm⟩ := hasDist_of_pathTo hp
      by_cases hmd : m ≤ d
      · exact (hm'.vis_iff t).mpr (Or.inl ⟨m, hmd, hdm.1⟩)
      · have hmd1 : m = d + 1 := by omega
        subst hmd1
        exact (hm'.vis_iff t).mpr (Or.inr ((hfr' t).mpr hdm))
  · intro hne
    have h1 := hm'.count
    have h2 := hi.len (by simp)
    have h3 : 0 < next'.length := List.length_pos.mpr hne
    omega

theorem round_found_spec {succ : α → List α} {start target : α} {d : Nat}
    {u : α} {fr visited : List α} {pred pred' : List (α × α)}
    (hi : Inv succ start target d (u :: fr) visited pred)
    (h : expandFrontier succ target (u :: fr) visited pred [] = .found pred') :
    HasDist succ start target (d + 1) ∧
      (reconstruct pred' target).length = d + 2 := by
  have hfr : ∀ w ∈ u :: fr, HasDist succ start w d :=
    fun w hw => (hi.frontier_iff w).mp hw
  obtain ⟨hdist, ⟨S, hchain⟩, hlen⟩ := expandFrontier_found_spec (u :: fr)
    visited pred [] pred' hi.toMid hfr h
  have hd : d ≤ pred.length := hi.len (by simp)
  refine ⟨hdist, ?_⟩
  rw [reconstruct, List.length_reverse]
  exact walkBack_length hchain pred'.length (by omega)

/-- Soundness of the bounded BFS round loop: a returned path was found at
some depth `d'` strictly below the effort cap, it reaches the target at its
true shortest-hop distance `d' + 1`, and the path lists `d' + 2` titles. -/
theorem bfsLoop_some_spec {succ : α → List α} {start target : α} {cap : Nat} :
    ∀ (fuel expanded : Nat) (frontier visited : List α)
      (pred : List (α × α)) (p : List α) (d : Nat),
      Inv succ start target d frontier visited pred →
      d ≤ expanded →
      bfsLoop succ target cap fuel expanded frontier visited pred = some p →
      ∃ d', d ≤ d' ∧ d' < cap ∧ HasDist succ start target (d' + 1) ∧
        p.length = d' + 2 := by
  intro fuel
  induction fuel with
  | zero =>
    intro expanded frontier visited pred p d _ _ h
    cases frontier <;> simp [bfsLoop] at h
  | succ f ih =>
    intro expanded frontier visited pred p d hi hde h
    cases frontier with
    | nil => simp [bfsLoop] at h
    | cons u fr =>
      rw [bfsLoop] at h
      by_cases hcap : cap ≤ expanded
      · rw [if_pos hcap] at h
        exact absurd h (by simp)
      · rw [if_neg hcap] at h
        cases hee : expandFrontier succ target (u :: fr) visited pred [] with
        | found pred' =>
          rw [hee] at h
          simp only [Option.some.injEq] at h
          obtain ⟨hdist, hplen⟩ := round_found_spec hi hee
          exact ⟨d, le_refl d, by omega, hdist, by rw [← h, hplen]⟩
        | cont visited' pred' next =>
          rw [hee] at h
          have hi' := round_cont_inv hi hee
          obtain ⟨d', hd1, hd2, hdist, hplen⟩ :=
            ih (expanded + (u :: fr).length) next visited' pred' p (d + 1)
              hi' (by simp only [List.length_cons]; omega) h
          exact ⟨d', by omega, hd2, hdist, hplen⟩

end RoundLemmas

section PathFinderTheorems

variable {α : Type} [DecidableEq α]

/-- Everything a successfully returned path satisfies: its hop count is the
true shortest-hop distance between the two titles, it is non-empty, and it
is a single title (self-path) or lists at most `cap + 1` titles. -/
theorem find_short_path_some_spec (resolve : α → Option (Page α))
    (hard : Bool) (cap : Nat) (start target : Page α) (p : List α)
    (h : find_short_path resolve hard cap start target = some p) :
    HasDist (succOf resolve hard) start.title target.title (p.length - 1) ∧
      p ≠ [] ∧ (p.length = 1 ∨ p.length ≤ cap + 1) := by
  rw [find_short_path] at h
  by_cases heq : start.title = target.title
  · rw [if_pos heq] at h
    simp only [Option.some.injEq] at h
    subst h
    refine ⟨?_, by simp, Or.inl rfl⟩
    simpa [heq] using hasDist_self (succOf resolve hard) target.title
  · rw [if_neg heq] at h
    obtain ⟨d', _, hd2, hdist, hplen⟩ := bfsLoop_some_spec cap 0
      [start.title] [start.title] [] p 0 (inv_initial fun he => heq he.symm)
      (le_refl 0) h
    refine ⟨?_, ?_, Or.inr (by omega)⟩
    · rw [hplen]
      simpa using hdist
    · intro hnil
      rw [hnil] at hplen
      simp only [List.length_nil] at hplen
      omega

/-- C1: for every graph snapshot, edge policy and effort cap, when
`find_short_path` returns a path for a (hence connected) pair, the hop count
of that path equals the true shortest-hop distance from the start title to
the target title over the same fixed graph snapshot. -/
theorem c1_bfs_optimality (resolve : α → Option (Page α)) (hard : Bool)
    (cap : Nat) (start target : Page α) (p : List α)
    (h : find_short_path resolve hard cap start target = some p) :
    HasDist (succOf resolve hard) start.title target.title (p.length - 1) :=
  (find_short_path_some_spec resolve hard cap start target p h).1

theorem c1_bfs_optimality_witness :
    find_short_path diamondResolve false 50 (diamondPage 0) (diamondPage 3) =
      some [0, 1, 3] ∧
      HasDist (succOf diamondResolve false) (diamondPage 0).title
        (diamondPage 3).title ([0, 1, 3].length - 1) :=
  ⟨by decide, c1_bfs_optimality diamondResolve false 50 (diamondPage 0)
    (diamondPage 3) [0, 1, 3] (by decide)⟩

/-- Every hop in the chain graph goes from a title to its successor, so a
path of `n` hops from title 0 ends at title `n`. -/
theorem chain_pathTo {t n : Nat}
    (h : PathTo (succOf chainResolve false) 0 t n) : t = n := by
  induction h with
  | refl => rfl
  | @step u v m hp hmem ih =>
    subst ih
    simp only [succOf, chainResolve, edgeSet, chainPage, Bool.false_eq_true,
      if_false, List.append_nil] at hmem
    split at hmem
    · simp only [List.mem_singleton] at hmem
      omega
    · exact absurd hmem (List.not_mem_nil v)

/-- C2: `find_short_path` always terminates and respects the effort cap:
whenever every path from start to target needs more hops than the cap
permits — so the target cannot be discovered within the bound — the call
returns `NotConnected` (`none`), even though a path may exist deeper. -/
theorem c2_bounded_termination (resolve : α → Option (Page α)) (hard : Bool)
    (cap : Nat) (start target : Page α)
    (hdeep : ∀ n, PathTo (succOf resolve hard) start.title target.title n →
      cap < n) :
    find_short_path resolve hard cap start target = none := by
  cases hres : find_short_path resolve hard cap start target with
  | none => rfl
  | some p =>
    obtain ⟨hdist, hnil, hlen⟩ :=
      find_short_path_some_spec resolve hard cap start target p hres
    have h1 := hdeep (p.length - 1) hdist.1
    have h2 : 0 < p.length := List.length_pos.mpr hnil
    rcases hlen with h3 | h3 <;> omega

theorem c2_bounded_termination_witness :
    find_short_path chainResolve false 5 (chainPage 0) (chainPage 50) =
      none :=
  c2_bounded_termination chainResolve false 5 (chainPage 0) (chainPage 50)
    (fun n hp => by
      have h1 := chain_pathTo hp
      have h50 : (chainPage 50).title = 50 := rfl
      omega)

/-- C3: any call whose two endpoint pages carry the same identifier returns
the single-element path holding that title (distance 0). -/
theorem c3_self_path (resolve : α → Option (Page α)) (hard : Bool)
    (cap : Nat) (start target : Page α) (h : start.title = target.title) :
    find_short_path resolve hard cap start target = some [start.title] := by
  rw [find_short_path, if_pos h]

theorem c3_self_path_witness :
    find_short_path diamondResolve false 50 (diamondPage 2) (diamondPage 2) =
      some [(diamondPage 2).title] :=
  c3_self_path diamondResolve false 50 (diamondPage 2) (diamondPage 2) rfl

/-- C5 is false as stated: with a large enough effort cap the search can
return a path of more than 100 titles, and its score then exceeds the
NotConnected sentinel 100 — here a 101-title chain path scores 101. -/
theorem c5_counterexample :
    find_short_path chainResolve false 200 (chainPage 0) (chainPage 100) =
      some (List.range 101) ∧
      100 < scoreOf (find_short_path chainResolve false 200 (chainPage 0)
        (chainPage 100)) := by
  refine ⟨?_, ?_⟩ <;> decide

/-- C5 (amended): the NotConnected sentinel 100 dominates the score of every
result `find_short_path` can produce provided the effort cap is at most 99
expanded titles; a search can then never return a path of more than 100
titles. -/
theorem c5_sentinel_maximal (resolve : α → Option (Page α)) (hard : Bool)
    (cap : Nat) (start target : Page α) (hcap : cap ≤ 99) :
    scoreOf (find_short_path resolve hard cap start target) ≤ 100 := by
  cases hres : find_short_path resolve hard cap start target with
  | none => simp [scoreOf]
  | some p =>
    obtain ⟨_, hnil, hlen⟩ :=
      find_short_path_some_spec resolve hard cap start target p hres
    have h2 : 0 < p.length := List.length_pos.mpr hnil
    simp only [scoreOf]
    split
    · exact le_refl 100
    · rcases hlen with h3 | h3 <;> omega

theorem c5_sentinel_maximal_witness :
    50 ≤ 99 ∧
      scoreOf (find_short_path chainResolve false 50 (chainPage 0)
        (chainPage 100)) ≤ 100 :=
  ⟨by decide, c5_sentinel_maximal chainResolve false 50 (chainPage 0)
    (chainPage 100) (by decide)⟩

end PathFinderTheorems

section MainModelLemmas

theorem findsOf_append (a b : List Event) :
    findsOf (a ++ b) = findsOf a ++ findsOf b := by
  simp [findsOf]

theorem scoresOf_append (a b : List Event) :
    scoresOf (a ++ b) = scoresOf a ++ scoresOf b := by
  simp [scoresOf]

theorem displaysOf_append (a b : List Event) :
    displaysOf (a ++ b) = displaysOf a ++ displaysOf b := by
  simp [displaysOf]

theorem countSetMode_append (a b : List Event) :
    countSetMode (a ++ b) = countSetMode a + countSetMode b := by
  simp [countSetMode, List.filter_append]

theorem findsOf_display (p : Page String) : findsOf [displayEvent p] = [] :=
  rfl

theorem scoresOf_display (p : Page String) : scoresOf [displayEvent p] = [] :=
  rfl

theorem displaysOf_display (p : Page String) :
    displaysOf [displayEvent p] = [(p, p.title, p.summary.take 500)] :=
  rfl

theorem countSetMode_display (p : Page String) :
    countSetMode [displayEvent p] = 0 :=
  rfl

theorem findsOf_final (a b a' b' : Page String) (r r' : Option (List String))
    (n n' : Nat) :
    findsOf [Event.findPath a b r, Event.assignScore false n,
      Event.findPath a' b' r', Event.assignScore true n'] =
      [(a, b, r), (a', b', r')] :=
  rfl

theorem scoresOf_final (a b a' b' : Page String) (r r' : Option (List String))
    (n n' : Nat) :
    scoresOf [Event.findPath a b r, Event.assignScore false n,
      Event.findPath a' b' r', Event.assignScore true n'] =
      [(false, n), (true, n')] :=
  rfl

theorem displaysOf_final (a b a' b' : Page String)
    (r r' : Option (List String)) (n n' : Nat) :
    displaysOf [Event.findPath a b r, Event.assignScore false n,
      Event.findPath a' b' r', Event.assignScore true n'] = [] :=
  rfl

theorem countSetMode_final (a b a' b' : Page String)
    (r r' : Option (List String)) (n n' : Nat) :
    countSetMode [Event.findPath a b r, Event.assignScore false n,
      Event.findPath a' b' r', Event.assignScore true n'] = 0 :=
  rfl

/-- Full characterisation of a retry loop that returned a page: the consumed
names split into failing attempts followed by the succeeding one, with one
`get_page` event per attempt — every `NotFound` was followed by a retry with
the next name, and the loop exited at the first success. -/
theorem resolveLoop_spec (gp : String → Option (Page String)) :
    ∀ (ws : List String) (p : Page String) (rest : List String)
      (evs : List Event),
      resolveLoop gp ws = some (p, rest, evs) →
      ∃ pre w, ws = pre ++ w :: rest ∧ (∀ n ∈ pre, gp n = none) ∧
        gp w = some p ∧
        evs = pre.map (fun n => Event.getPage n none) ++
          [Event.getPage w (some p)] := by
  intro ws
  induction ws with
  | nil =>
    intro p rest evs h
    simp [resolveLoop] at h
  | cons w ws ih =>
    intro p rest evs h
    rw [resolveLoop] at h
    cases hw : gp w with
    | some q =>
      rw [hw] at h
      simp only [Option.some.injEq, Prod.mk.injEq] at h
      obtain ⟨h1, h2, h3⟩ := h
      subst h1
      subst h2
      subst h3
      exact ⟨[], w, rfl, by simp, hw, rfl⟩
    | none =>
      rw [hw] at h
      cases hrec : resolveLoop gp ws with
      | none =>
        rw [hrec] at h
        simp at h
      | some trip =>
        obtain ⟨q, rest1, evs1⟩ := trip
        rw [hrec] at h
        dsimp only at h
        simp only [Option.some.injEq, Prod.mk.injEq] at h
        obtain ⟨h1, h2, h3⟩ := h
        obtain ⟨pre, w1, hws, hfail, hok, hevs⟩ := ih q rest1 evs1 hrec
        refine ⟨w :: pre, w1, ?_, ?_, ?_, ?_⟩
        · rw [← h2]
          simp [hws]
        · intro n hn
          rcases List.mem_cons.mp hn with hn | hn
          · exact hn ▸ hw
          · exact hfail n hn
        · rw [← h1]
          exact hok
        · rw [← h3, ← h1]
          simp [hevs]

/-- Lists made only of `get_page` events contribute nothing to any other
extractor. -/
theorem getPage_events_trivial :
    ∀ evs : List Event, (∀ e ∈ evs, ∃ w r, e = Event.getPage w r) →
      countSetMode evs = 0 ∧ findsOf evs = [] ∧ scoresOf evs = [] ∧
        displaysOf evs = [] ∧ ∀ e ∈ evs, pageUses e = [] := by
  intro evs
  induction evs with
  | nil =>
    intro _
    exact ⟨rfl, rfl, rfl, rfl, fun e he => absurd he (List.not_mem_nil e)⟩
  | cons e es ih =>
    intro h
    obtain ⟨w, r, he⟩ := h e (List.mem_cons_self e es)
    subst he
    obtain ⟨h1, h2, h3, h4, h5⟩ :=
      ih (fun x hx => h x (List.mem_cons_of_mem _ hx))
    refine ⟨?_, ?_, ?_, ?_, ?_⟩
    · simpa [countSetMode, List.filter_cons] using h1
    · simpa [findsOf] using h2
    · simpa [scoresOf] using h3
    · simpa [displaysOf] using h4
    · intro x hx
      rcases List.mem_cons.mp hx with hx | hx
      · subst hx
        rfl
      · exact h5 x hx

/-- Everything the claims need about the event trace of one completed round:
the three pages were produced by successful `get_page` calls, the searches,
scores and displays appear exactly as `main.py` emits them, no mode change
happens inside a round, and every page whose fields the round reads came
from a successful `get_page`. -/
theorem playRound_extractors (env : Env) (hard : Bool)
    (randoms userIns : List String) (evs : List Event)
    (rnd' usr' : List String)
    (h : playRound env hard randoms userIns = some (evs, rnd', usr')) :
    ∃ sP cP uP,
      (∃ w, env.get_page w = some sP) ∧
      (∃ w, env.get_page w = some cP) ∧
      (∃ w, env.get_page w = some uP) ∧
      findsOf evs = [(sP, cP, env.fsp hard sP cP),
        (sP, uP, env.fsp hard sP uP)] ∧
      scoresOf evs = [(false, scoreOf (env.fsp hard sP cP)),
        (true, scoreOf (env.fsp hard sP uP))] ∧
      displaysOf evs = [(sP, sP.title, sP.summary.take 500),
        (cP, cP.title, cP.summary.take 500),
        (uP, uP.title, uP.summary.take 500)] ∧
      countSetMode evs = 0 ∧
      (∀ e ∈ evs, ∀ q ∈ pageUses e, ∃ w, env.get_page w = some q) := by
  rw [playRound] at h
  cases h1 : resolveLoop env.get_page randoms with
  | none =>
    rw [h1] at h
    simp at h
  | some t1 =>
    obtain ⟨sP, rnd1, evs1⟩ := t1
    rw [h1] at h
    dsimp only at h
    cases h2 : resolveLoop env.get_page rnd1 with
    | none =>
      rw [h2] at h
      simp at h
    | some t2 =>
      obtain ⟨cP, rnd2, evs2⟩ := t2
      rw [h2] at h
      dsimp only at h
      cases h3 : resolveLoop env.get_page userIns with
      | none =>
        rw [h3] at h
        simp at h
      | some t3 =>
        obtain ⟨uP, usr1, evs3⟩ := t3
        rw [h3] at h
        dsimp only at h
        simp only [Option.some.injEq, Prod.mk.injEq] at h
        obtain ⟨hevs, hrnd, husr⟩ := h
        obtain ⟨pre1, w1, _, _, hok1, hevs1⟩ :=
          resolveLoop_spec env.get_page randoms sP rnd1 evs1 h1
        obtain ⟨pre2, w2, _, _, hok2, hevs2⟩ :=
          resolveLoop_spec env.get_page rnd1 cP rnd2 evs2 h2
        obtain ⟨pre3, w3, _, _, hok3, hevs3⟩ :=
          resolveLoop_spec env.get_page userIns uP usr1 evs3 h3
        have hg : ∀ (l : List Event) (pre : List String) (w : String)
            (q : Page String),
            l = pre.map (fun n => Event.getPage n none) ++
              [Event.getPage w (some q)] →
            ∀ e ∈ l, ∃ w' r', e = Event.getPage w' r' := by
          intro l pre w q hl e he
          subst hl
          rcases List.mem_append.mp he with he | he
          · obtain ⟨n, _, hn⟩ := List.mem_map.mp he
            exact ⟨n, none, hn.symm⟩
          · rw [List.mem_singleton.mp he]
            exact ⟨w, some q, rfl⟩
        obtain ⟨t1a, t1b, t1c, t1d, t1e⟩ :=
          getPage_events_trivial evs1 (hg evs1 pre1 w1 sP hevs1)
        obtain ⟨t2a, t2b, t2c, t2d, t2e⟩ :=
          getPage_events_trivial evs2 (hg evs2 pre2 w2 cP hevs2)
        obtain ⟨t3a, t3b, t3c, t3d, t3e⟩ :=
          getPage_events_trivial evs3 (hg evs3 pre3 w3 uP hevs3)
        subst hevs
        refine ⟨sP, cP, uP, ⟨w1, hok1⟩, ⟨w2, hok2⟩, ⟨w3, hok3⟩, ?_, ?_, ?_,
          ?_, ?_⟩
        · simp only [findsOf_append, t1b, t2b, t3b, findsOf_display,
            findsOf_final, List.nil_append, List.append_nil]
        · simp only [scoresOf_append, t1c, t2c, t3c, scoresOf_display,
            scoresOf_final, List.nil_append, List.append_nil]
        · simp only [displaysOf_append, t1d, t2d, t3d, displaysOf_display,
            displaysOf_final, List.nil_append, List.append_nil]
          rfl
        · simp only [countSetMode_append, t1a, t2a, t3a, countSetMode_display,
            countSetMode_final]
        · have htriv : ∀ (l : List Event), (∀ e ∈ l, pageUses e = []) →
              ∀ e ∈ l, ∀ q ∈ pageUses e, ∃ w, env.get_page w = some q := by
            intro l hl e he q hq
            rw [hl e he] at hq
            exact absurd hq (List.not_mem_nil q)
          have hdisp : ∀ P : Page String, (∃ w, env.get_page w = some P) →
              ∀ e ∈ [displayEvent P], ∀ q ∈ pageUses e,
                ∃ w, env.get_page w = some q := by
            intro P hP e he q hq
            rw [List.mem_singleton.mp he] at hq
            simp only [displayEvent, pageUses, List.mem_singleton] at hq
            exact hq ▸ hP
          have hpair : ∀ q : Page String, q ∈ [sP, cP] ∨ q ∈ [sP, uP] →
              ∃ w, env.get_page w = some q := by
            intro q hq
            rcases hq with hq | hq <;> rcases List.mem_cons.mp hq with h' | h'
            · exact h' ▸ ⟨w1, hok1⟩
            · rw [List.mem_singleton.mp h']
              exact ⟨w2, hok2⟩
            · exact h' ▸ ⟨w1, hok1⟩
            · rw [List.mem_singleton.mp h']
              exact ⟨w3, hok3⟩
          intro e he
          simp only [List.append_assoc, List.mem_append] at he
          rcases he with he | he | he | he | he | he | he
          · exact htriv evs1 t1e e he
          · exact hdisp sP ⟨w1, hok1⟩ e he
          · exact htriv evs2 t2e e he
          · exact hdisp cP ⟨w2, hok2⟩ e he
          · exact htriv evs3 t3e e he
          · exact hdisp uP ⟨w3, hok3⟩ e he
          · intro q hq
            rcases List.mem_cons.mp he with h' | he'
            · subst h'
              exact hpair q (Or.inl hq)
            · rcases List.mem_cons.mp he' with h' | he''
              · rw [h'] at hq
                exact absurd hq (List.not_mem_nil q)
              · rcases List.mem_cons.mp he'' with h' | he'''
                · subst h'
                  exact hpair q (Or.inr hq)
                · rw [List.mem_singleton.mp he'''] at hq
                  exact absurd hq (List.not_mem_nil q)

/-- Every round of a completed `mainLoop` run is a completed `playRound`. -/
theorem mainLoop_rounds (env : Env) (hard : Bool) :
    ∀ (fuel : Nat) (randoms userIns agains : List String)
      (rounds : List (List Event)),
      mainLoop env hard fuel randoms userIns agains = some rounds →
      ∀ evs ∈ rounds, ∃ rn us a b,
        playRound env hard rn us = some (evs, a, b) := by
  intro fuel
  induction fuel with
  | zero =>
    intro randoms userIns agains rounds h
    simp [mainLoop] at h
  | succ f ih =>
    intro randoms userIns agains rounds h
    rw [mainLoop] at h
    cases hp : playRound env hard randoms userIns with
    | none =>
      rw [hp] at h
      simp at h
    | some trip =>
      obtain ⟨evs0, rnd', usr'⟩ := trip
      rw [hp] at h
      dsimp only at h
      cases agains with
      | nil => simp at h
      | cons cmd rest =>
        dsimp only at h
        by_cases hq : cmd = "q"
        · rw [if_pos hq] at h
          simp only [Option.some.injEq] at h
          subst h
          intro evs hevs
          rw [List.mem_singleton.mp hevs]
          exact ⟨randoms, userIns, rnd', usr', hp⟩
        · rw [if_neg hq] at h
          cases hrec : mainLoop env hard f rnd' usr' rest with
          | none =>
            rw [hrec] at h
            simp at h
          | some rounds' =>
            rw [hrec] at h
            simp only [Option.some.injEq] at h
            subst h
            intro evs hevs
            rcases List.mem_cons.mp hevs with hevs | hevs
            · subst hevs
              exact ⟨randoms, userIns, rnd', usr', hp⟩
            · exact ih rnd' usr' rest rounds' hrec evs hevs

/-- A completed program run sets hard mode exactly once at startup, and each
of its rounds is a completed `playRound` under that flag. -/
theorem mainProg_spec (env : Env) (mode startCmd : String)
    (randoms userIns agains : List String) (fuel : Nat)
    (setup : List Event) (rounds : List (List Event))
    (h : mainProg env mode startCmd randoms userIns agains fuel =
      some (setup, rounds)) :
    setup = [Event.setMode (mode == "2")] ∧
      ∀ evs ∈ rounds, ∃ rn us a b,
        playRound env (mode == "2") rn us = some (evs, a, b) := by
  simp only [mainProg] at h
  by_cases hq : startCmd = "q"
  · rw [if_pos hq] at h
    simp only [Option.some.injEq, Prod.mk.injEq] at h
    obtain ⟨hs, hr⟩ := h
    subst hs
    subst hr
    exact ⟨rfl, fun evs hevs => absurd hevs (List.not_mem_nil evs)⟩
  · rw [if_neg hq] at h
    cases hm : mainLoop env (mode == "2") fuel randoms userIns agains with
    | none =>
      rw [hm] at h
      simp at h
    | some rounds' =>
      rw [hm] at h
      simp only [Option.some.injEq, Prod.mk.injEq] at h
      obtain ⟨hs, hr⟩ := h
      subst hs
      subst hr
      exact ⟨rfl, mainLoop_rounds env _ fuel randoms userIns agains rounds' hm⟩

end MainModelLemmas

section MainClaimTheorems

/-- C4: in every round of the game loop run against the modelled core, each
of the two searches yields its side's score exactly as `main.py` assigns it:
a `NotConnected` (`None`) result scores the fixed sentinel 100, and a
returned path scores its length. -/
theorem c4_not_connected_sentinel (gp resolve : String → Option (Page String))
    (cap : Nat) (mode startCmd : String)
    (randoms userIns agains : List String) (fuel : Nat)
    (setup : List Event) (rounds : List (List Event))
    (h : mainProg (wikiEnv gp resolve cap) mode startCmd randoms userIns
      agains fuel = some (setup, rounds)) :
    ∀ evs ∈ rounds, ∃ sP cP uP r1 r2 n1 n2,
      findsOf evs = [(sP, cP, r1), (sP, uP, r2)] ∧
      scoresOf evs = [(false, n1), (true, n2)] ∧
      (r1 = none → n1 = 100) ∧ (∀ p, r1 = some p → n1 = p.length) ∧
      (r2 = none → n2 = 100) ∧ (∀ p, r2 = some p → n2 = p.length) := by
  obtain ⟨_, hrounds⟩ := mainProg_spec (wikiEnv gp resolve cap) mode startCmd
    randoms userIns agains fuel setup rounds h
  intro evs hevs
  obtain ⟨rn, us, a, b, hp⟩ := hrounds evs hevs
  obtain ⟨sP, cP, uP, _, _, _, hfin, hsc, _, _, _⟩ :=
    playRound_extractors (wikiEnv gp resolve cap) _ rn us evs a b hp
  have hscore : ∀ (x y : Page String),
      (∀ p, (wikiEnv gp resolve cap).fsp (mode == "2") x y = some p →
        scoreOf ((wikiEnv gp resolve cap).fsp (mode == "2") x y) =
          p.length) := by
    intro x y p hp'
    have hnil :=
      (find_short_path_some_spec resolve (mode == "2") cap x y p hp').2.1
    rw [hp']
    cases p with
    | nil => exact absurd rfl hnil
    | cons z zs => rfl
  refine ⟨sP, cP, uP, (wikiEnv gp resolve cap).fsp (mode == "2") sP cP,
    (wikiEnv gp resolve cap).fsp (mode == "2") sP uP,
    scoreOf ((wikiEnv gp resolve cap).fsp (mode == "2") sP cP),
    scoreOf ((wikiEnv gp resolve cap).fsp (mode == "2") sP uP),
    hfin, hsc, ?_, hscore sP cP, ?_, hscore sP uP⟩
  · intro hr
    rw [hr]
    rfl
  · intro hr
    rw [hr]
    rfl

/-- C6 is false as stated: in this completed two-round run, neither round's
events contain any `set_hard_mode` call — the single call happens once at
startup, not once per round. -/
theorem c6_counterexample :
    (mainProg demoEnv "1" "go" ["a", "b", "c", "d"] ["u1", "u2"]
      ["", "q"] 5).map (fun r => (r.2.length, r.2.map countSetMode)) =
      some (2, [0, 0]) := by
  decide

/-- C6 (amended): `set_hard_mode` is called exactly once per program run,
at startup before any round begins — hence before every search of every
round — and is never called again inside a round; the flag set at startup is
the one every round's searches use, rather than being set anew each round. -/
theorem c6_set_mode_once (env : Env) (mode startCmd : String)
    (randoms userIns agains : List String) (fuel : Nat)
    (setup : List Event) (rounds : List (List Event))
    (h : mainProg env mode startCmd randoms userIns agains fuel =
      some (setup, rounds)) :
    setup = [Event.setMode (mode == "2")] ∧
      ∀ evs ∈ rounds, countSetMode evs = 0 := by
  obtain ⟨hsetup, hrounds⟩ := mainProg_spec env mode startCmd randoms userIns
    agains fuel setup rounds h
  refine ⟨hsetup, ?_⟩
  intro evs hevs
  obtain ⟨rn, us, a, b, hp⟩ := hrounds evs hevs
  obtain ⟨_, _, _, _, _, _, _, _, _, hcount, _⟩ :=
    playRound_extractors env _ rn us evs a b hp
  exact hcount

/-- C7: the retry loop of the game loop absorbs `NotFound` results: when a
prefix of candidate names fails to resolve and the next name succeeds, the
loop issues one `get_page` call per candidate — every failure is followed by
a retry with the next name — and completes normally at the first success
with that page, with no exception path. -/
theorem c7_retry_on_not_found (gp : String → Option (Page String))
    (pre : List String) (w : String) (rest : List String) (p : Page String)
    (hfail : ∀ n ∈ pre, gp n = none) (hok : gp w = some p) :
    resolveLoop gp (pre ++ w :: rest) =
      some (p, rest, pre.map (fun n => Event.getPage n none) ++
        [Event.getPage w (some p)]) := by
  induction pre with
  | nil => simp [resolveLoop, hok]
  | cons a pre ih =>
    have ha : gp a = none := hfail a (List.mem_cons_self a pre)
    have ih' := ih (fun n hn => hfail n (List.mem_cons_of_mem a hn))
    simp [resolveLoop, ha, ih']

/-- C8: every page display of every round shows exactly the page's title and
the first 500 characters of its summary — the whole summary when it is
shorter — and the displayed page record is exactly the one the page source
returned (the fields are only read, never modified). -/
theorem c8_display_text (env : Env) (mode startCmd : String)
    (randoms userIns agains : List String) (fuel : Nat)
    (setup : List Event) (rounds : List (List Event))
    (h : mainProg env mode startCmd randoms userIns agains fuel =
      some (setup, rounds)) :
    ∀ evs ∈ rounds, ∀ pr ∈ displaysOf evs,
      pr.2.1 = pr.1.title ∧ pr.2.2 = pr.1.summary.take 500 ∧
      (pr.1.summary.length ≤ 500 → pr.2.2 = pr.1.summary) ∧
      ∃ w, env.get_page w = some pr.1 := by
  obtain ⟨_, hrounds⟩ := mainProg_spec env mode startCmd randoms userIns
    agains fuel setup rounds h
  intro evs hevs
  obtain ⟨rn, us, a, b, hp⟩ := hrounds evs hevs
  obtain ⟨sP, cP, uP, hsP, hcP, huP, _, _, hdisp, _, _⟩ :=
    playRound_extractors env _ rn us evs a b hp
  intro pr hpr
  rw [hdisp] at hpr
  have hone : ∀ P : Page String, (∃ w, env.get_page w = some P) →
      pr = (P, P.title, P.summary.take 500) →
      pr.2.1 = pr.1.title ∧ pr.2.2 = pr.1.summary.take 500 ∧
        (pr.1.summary.length ≤ 500 → pr.2.2 = pr.1.summary) ∧
        ∃ w, env.get_page w = some pr.1 := by
    intro P hP hpr'
    subst hpr'
    exact ⟨rfl, rfl, fun hlen => List.take_of_length_le hlen, hP⟩
  rcases List.mem_cons.mp hpr with h' | h'
  · exact hone sP hsP h'
  · rcases List.mem_cons.mp h' with h'' | h''
    · exact hone cP hcP h''
    · exact hone uP huP (List.mem_singleton.mp h'')

/-- C9: in every round of the game loop, `find_short_path` is invoked
exactly twice, in order: first on (start page, computer page), then on
(start page, user page), both sharing the round's start page — the first
page displayed that round — as first argument. -/
theorem c9_two_searches_per_round (env : Env) (mode startCmd : String)
    (randoms userIns agains : List String) (fuel : Nat)
    (setup : List Event) (rounds : List (List Event))
    (h : mainProg env mode startCmd randoms userIns agains fuel =
      some (setup, rounds)) :
    ∀ evs ∈ rounds, ∃ sP cP uP r1 r2,
      displaysOf evs = [(sP, sP.title, sP.summary.take 500),
        (cP, cP.title, cP.summary.take 500),
        (uP, uP.title, uP.summary.take 500)] ∧
      findsOf evs = [(sP, cP, r1), (sP, uP, r2)] := by
  obtain ⟨_, hrounds⟩ := mainProg_spec env mode startCmd randoms userIns
    agains fuel setup rounds h
  intro evs hevs
  obtain ⟨rn, us, a, b, hp⟩ := hrounds evs hevs
  obtain ⟨sP, cP, uP, _, _, _, hfin, _, hdisp, _, _⟩ :=
    playRound_extractors env _ rn us evs a b hp
  exact ⟨sP, cP, uP, _, _, hdisp, hfin⟩

/-- C10: every page whose `title` or `summary` field the game loop reads —
a displayed page or an argument of a search — is a page some successful
`get_page` call returned; field accesses never happen on a `NotFound`
result. -/
theorem c10_reads_only_resolved (env : Env) (mode startCmd : String)
    (randoms userIns agains : List String) (fuel : Nat)
    (setup : List Event) (rounds : List (List Event))
    (h : mainProg env mode startCmd randoms userIns agains fuel =
      some (setup, rounds)) :
    ∀ evs ∈ rounds, ∀ e ∈ evs, ∀ q ∈ pageUses e,
      ∃ w, env.get_page w = some q := by
  obtain ⟨_, hrounds⟩ := mainProg_spec env mode startCmd randoms userIns
    agains fuel setup rounds h
  intro evs hevs
  obtain ⟨rn, us, a, b, hp⟩ := hrounds evs hevs
  obtain ⟨_, _, _, _, _, _, _, _, _, _, huses⟩ :=
    playRound_extractors env _ rn us evs a b hp
  exact huses

theorem c4_not_connected_sentinel_witness :
    mainProg (wikiEnv demoGet demoGet 10) "1" "go" ["w1", "w2"] ["w3"]
      ["q"] 3 = some ([Event.setMode false], [demoRound "w1" "w2" "w3"]) ∧
      ∀ evs ∈ [demoRound "w1" "w2" "w3"], ∃ sP cP uP r1 r2 n1 n2,
        findsOf evs = [(sP, cP, r1), (sP, uP, r2)] ∧
        scoresOf evs = [(false, n1), (true, n2)] ∧
        (r1 = none → n1 = 100) ∧ (∀ p, r1 = some p → n1 = p.length) ∧
        (r2 = none → n2 = 100) ∧ (∀ p, r2 = some p → n2 = p.length) :=
  ⟨by decide, c4_not_connected_sentinel demoGet demoGet 10 "1" "go"
    ["w1", "w2"] ["w3"] ["q"] 3 [Event.setMode false]
    [demoRound "w1" "w2" "w3"] (by decide)⟩

theorem c6_set_mode_once_witness :
    mainProg demoEnv "2" "go" ["a", "b"] ["u"] ["q"] 3 =
      some ([Event.setMode true], [demoRound "a" "b" "u"]) ∧
      ([Event.setMode true] = [Event.setMode ("2" == "2")] ∧
        ∀ evs ∈ [demoRound "a" "b" "u"], countSetMode evs = 0) :=
  ⟨by decide, c6_set_mode_once demoEnv "2" "go" ["a", "b"] ["u"] ["q"] 3
    [Event.setMode true] [demoRound "a" "b" "u"] (by decide)⟩

theorem c7_retry_on_not_found_witness :
    (∀ n ∈ ["bad"], flakyGet n = none) ∧
      flakyGet "ok" = some (demoPage "ok") ∧
      resolveLoop flakyGet (["bad"] ++ "ok" :: ["later"]) =
        some (demoPage "ok", ["later"],
          [Event.getPage "bad" none,
           Event.getPage "ok" (some (demoPage "ok"))]) :=
  ⟨by decide, by decide,
    c7_retry_on_not_found flakyGet ["bad"] "ok" ["later"] (demoPage "ok")
      (by decide) (by decide)⟩

theorem c8_display_text_witness :
    mainProg demoEnv "1" "go" ["p1", "p2"] ["p3"] ["q"] 3 =
      some ([Event.setMode false], [demoRound "p1" "p2" "p3"]) ∧
      ∀ evs ∈ [demoRound "p1" "p2" "p3"], ∀ pr ∈ displaysOf evs,
        pr.2.1 = pr.1.title ∧ pr.2.2 = pr.1.summary.take 500 ∧
        (pr.1.summary.length ≤ 500 → pr.2.2 = pr.1.summary) ∧
        ∃ w, demoEnv.get_page w = some pr.1 :=
  ⟨by decide, c8_display_text demoEnv "1" "go" ["p1", "p2"] ["p3"] ["q"] 3
    [Event.setMode false] [demoRound "p1" "p2" "p3"] (by decide)⟩

theorem c9_two_searches_per_round_witness :
    mainProg demoEnv "1" "go" ["s1", "s2"] ["s3"] ["q"] 3 =
      some ([Event.setMode false], [demoRound "s1" "s2" "s3"]) ∧
      ∀ evs ∈ [demoRound "s1" "s2" "s3"], ∃ sP cP uP r1 r2,
        displaysOf evs = [(sP, sP.title, sP.summary.take 500),
          (cP, cP.title, cP.summary.take 500),
          (uP, uP.title, uP.summary.take 500)] ∧
        findsOf evs = [(sP, cP, r1), (sP, uP, r2)] :=
  ⟨by decide, c9_two_searches_per_round demoEnv "1" "go" ["s1", "s2"]
    ["s3"] ["q"] 3 [Event.setMode false] [demoRound "s1" "s2" "s3"]
    (by decide)⟩

theorem c10_reads_only_resolved_witness :
    mainProg demoEnv "1" "go" ["t1", "t2"] ["t3"] ["q"] 3 =
      some ([Event.setMode false], [demoRound "t1" "t2" "t3"]) ∧
      ∀ evs ∈ [demoRound "t1" "t2" "t3"], ∀ e ∈ evs, ∀ q ∈ pageUses e,
        ∃ w, demoEnv.get_page w = some q :=
  ⟨by decide, c10_reads_only_resolved demoEnv "1" "go" ["t1", "t2"] ["t3"]
    ["q"] 3 [Event.setMode false] [demoRound "t1" "t2" "t3"] (by decide)⟩

end MainClaimTheorems

end WikiBacon
